import Mathlib

/-!
Verification of the `kvs` log-structured key-value store (`src/kv.rs`).

The store keeps an append-only log file of JSON-encoded commands
(`KvCommand::Set(key, value)` / `KvCommand::Remove(key)`, serialized by
`serde_json`) together with an in-memory index (`HashMap<String, usize>`)
mapping each live key to the byte offset in the log file where a record
for it begins.

Shallow embedding choices:
* the log file is modelled as the list of records it contains, in append
  order; byte positions are recovered from the exact `serde_json` encoded
  length of each record (`encLen`), so offsets in the model are real byte
  offsets into the file;
* reading at a byte offset (`readAt`) succeeds exactly when the offset is
  the start of a record; seeking past the end yields the end-of-stream
  error and seeking into the middle of a record yields a decode error,
  as `serde_json`'s `StreamDeserializer` does on the logs this program
  writes;
* the `HashMap` index is modelled as an association list with the map
  semantics of `HashMap` (insert overwrites, keys unique); its iteration
  order in `compact` is the list order, which is unconstrained, matching
  the unconstrained `HashMap` iteration order;
* `&mut self` methods are modelled in state-passing style, returning the
  store state after the call together with the `Result`; I/O failures of
  the underlying filesystem are injected through explicit failure-point
  parameters where an error-handling property needs them (the temporary
  compaction file `kvs.comp` is assumed absent/empty when compaction
  starts, and partial bytes of an interrupted append are not modelled).
-/

/-- The command alphabet of the log, `enum KvCommand` in `kv.rs`:
`Set(String, String)` or `Remove(String)`. -/
inductive KvCommand where
  | Set (key value : String)
  | Remove (key : String)
deriving DecidableEq, Repr

/-- Encoded length in bytes of one character of a JSON string as
`serde_json` writes it: `"` and `\` become two-byte escapes, the control
characters BS, TAB, LF, FF, CR become two-byte short escapes, all other
control characters below 0x20 become six-byte `\u00XX` escapes, and
everything else is written as its raw UTF-8 bytes. -/
def escCharLen (c : Char) : Nat :=
  if c = '"' ∨ c = '\\' then 2
  else if c.toNat < 32 then
    if c.toNat = 8 ∨ c.toNat = 9 ∨ c.toNat = 10 ∨ c.toNat = 12 ∨ c.toNat = 13
    then 2 else 6
  else c.utf8Size

/-- Encoded length in bytes of the JSON escaping of a string. -/
def escLen (s : String) : Nat := (s.data.map escCharLen).sum

/-- Exact byte length of the `serde_json` encoding of a record:
`Set k v` serializes as `{"Set":["k","v"]}` (15 bytes of framing) and
`Remove k` as `{"Remove":"k"}` (13 bytes of framing). -/
def encLen : KvCommand → Nat
  | .Set k v => 15 + escLen k + escLen v
  | .Remove k => 13 + escLen k

/-- Total size in bytes of the log file holding records `l` back to back. -/
def logSize (l : List KvCommand) : Nat := (l.map encLen).sum

/-- Outcome of trying to decode one record at a byte position:
end-of-stream (`StreamDeserializer::next` returns `None`) or a decode
failure (`serde_json` error). -/
inductive ReadErr where
  | eof
  | corrupt
deriving DecidableEq, Repr

/-- Decode exactly one record starting at byte offset `off` of a log
holding records `l`: offset 0 of a nonempty log is the first record, an
offset inside the first record fails to decode, and any other offset is
resolved in the rest of the log. An offset at or past the end of the file
reads end-of-stream. -/
def readAt : List KvCommand → Nat → Except ReadErr KvCommand
  | [], _ => .error .eof
  | c :: rest, off =>
    if off = 0 then .ok c
    else if off < encLen c then .error .corrupt
    else readAt rest (off - encLen c)

/-- The error type `KvError { msg: String }`, with the distinct messages
the code produces kept apart as constructors. -/
inductive KvError where
  /-- `"Key not found"`, from `remove` on an absent key. -/
  | keyNotFound
  /-- `"value not found in the offset: {}"`, from `get` hitting
  end-of-stream at the stored offset. -/
  | offsetNotFound (off : Nat)
  /-- `"remove command at the offset: {}"`, from `get` decoding a
  `Remove` record at the stored offset. -/
  | removeAtOffset (off : Nat)
  /-- a `serde_json` decode error converted by `From<serde_json::Error>`. -/
  | corruptRecord
  /-- an `io::Error` converted by `From<io::Error>`. -/
  | ioError
  /-- the `.unwrap()` panic in `compact` when a stored offset does not
  hold a record. -/
  | panicRead
deriving DecidableEq, Repr

/-- Look a key up in the index, `HashMap::get`. -/
def idxLookup (idx : List (String × Nat)) (k : String) : Option Nat :=
  (idx.find? (fun p => p.1 == k)).map (fun p => p.2)

/-- Delete a key from the index, `HashMap::remove`. -/
def idxRemove (idx : List (String × Nat)) (k : String) : List (String × Nat) :=
  idx.filter (fun p => p.1 != k)

/-- Insert a key, overwriting any previous binding, `HashMap::insert`. -/
def idxInsert (idx : List (String × Nat)) (k : String) (off : Nat) :
    List (String × Nat) :=
  idxRemove idx k ++ [(k, off)]

/-- The store: the in-memory index and the log file contents at the
log path (`struct KvStore { index, log }`). -/
structure KvStore where
  index : List (String × Nat)
  log : List KvCommand
deriving DecidableEq, Repr

/-- The loop of `KvStore::fill_index`: `idx` is `self.index`, `off` is the
local variable `offset`, and `pos` is `stream.byte_offset()`, the byte
position after the records consumed so far. On a `Set` the key is bound
to `off` and then `offset` is refreshed from `stream.byte_offset()`; on a
`Remove` the key is deleted and — exactly as in the source — `offset` is
left alone. -/
def fillIndexGo (idx : List (String × Nat)) (off pos : Nat) :
    List KvCommand → List (String × Nat)
  | [] => idx
  | c :: rest =>
    match c with
    | .Set k _ => fillIndexGo (idxInsert idx k off) (pos + encLen c) (pos + encLen c) rest
    | .Remove k => fillIndexGo (idxRemove idx k) off (pos + encLen c) rest

/-- `KvStore::fill_index` run over a whole log from the start. -/
def fillIndex (log : List KvCommand) : List (String × Nat) :=
  fillIndexGo [] 0 0 log

/-- `KvStore::open` on a path whose log file holds the records `log`
(the file is created empty when absent, so a fresh path is `openStore []`):
starts from an empty index and replays the log. -/
def KvStore.openStore (log : List KvCommand) : KvStore :=
  { index := fillIndex log, log := log }

/-- The compaction threshold `(1 << 10) * 30` compared against the log
file length at the start of `set`. -/
def compactionThreshold : Nat := (1 <<< 10) * 30

/-- Failure-injection points for `compact`: the fallible filesystem steps
in source order. `loopStep i` fails the i-th loop iteration (seek/write),
`renameSwap` fails the final `rename`. -/
inductive CompactFail where
  | createTmp
  | openCurr
  | loopStep (i : Nat)
  | renameSwap
deriving DecidableEq, Repr

/-- The loop of `KvStore::compact` over the index entries: reads the
record at each entry's offset from the old log (`old`), appends it to the
temporary file (`acc`), and records in `tmap` (`tm`) the size the
temporary file had before that write (`new_offset` is updated only after
the write). `i` counts iterations and `failAt` injects an I/O failure at
one iteration. A failed read is the `.unwrap()` panic in the source. -/
def compactGo (old : List KvCommand) :
    List (String × Nat) → List KvCommand → List (String × Nat) → Nat →
    Option Nat → Except KvError (List KvCommand × List (String × Nat))
  | [], acc, tm, _, _ => .ok (acc, tm)
  | (k, off) :: rest, acc, tm, i, failAt =>
    if failAt = some i then .error .ioError
    else
      match readAt old off with
      | .error _ => .error .panicRead
      | .ok cmd =>
        compactGo old rest (acc ++ [cmd]) (idxInsert tm k (logSize acc)) (i + 1) failAt

/-- `KvStore::compact` with failure injection `io` (`none` = all
filesystem operations succeed). Writes every live record to the fresh
temporary file, then atomically renames it over the log and installs the
rebuilt index; any failure returns before the rename/install, leaving the
store untouched. -/
def KvStore.compactIO (s : KvStore) (io : Option CompactFail) :
    KvStore × Except KvError Unit :=
  match io with
  | some .createTmp => (s, .error .ioError)
  | some .openCurr => (s, .error .ioError)
  | some (.loopStep i) =>
    match compactGo s.log s.index [] [] 0 (some i) with
    | .error e => (s, .error e)
    | .ok (newLog, tm) => ({ index := tm, log := newLog }, .ok ())
  | some .renameSwap =>
    match compactGo s.log s.index [] [] 0 none with
    | .error e => (s, .error e)
    | .ok _ => (s, .error .ioError)
  | none =>
    match compactGo s.log s.index [] [] 0 none with
    | .error e => (s, .error e)
    | .ok (newLog, tm) => ({ index := tm, log := newLog }, .ok ())

/-- `KvStore::compact` when the filesystem does not fail. -/
def KvStore.compact (s : KvStore) : KvStore × Except KvError Unit :=
  s.compactIO none

/-- `KvStore::set` (filesystem assumed healthy): if the log file size
exceeds the threshold, compact first; then append the `Set` record at the
end of the (possibly compacted) log and bind the key to the offset the
file ended at before the append. -/
def KvStore.setFull (s : KvStore) (k v : String) : KvStore × Except KvError Unit :=
  if logSize s.log > compactionThreshold then
    match s.compact with
    | (s', .ok _) =>
      ({ index := idxInsert s'.index k (logSize s'.log),
         log := s'.log ++ [.Set k v] }, .ok ())
    | (s', .error e) => (s', .error e)
  else
    ({ index := idxInsert s.index k (logSize s.log),
       log := s.log ++ [.Set k v] }, .ok ())

/-- `KvStore::get`, in state-passing form: the method takes `&self` and
performs only read-only filesystem operations, so the state component is
the unchanged store. Absent key is `Ok(None)`; a present key reads the
record at the stored offset, which must be a `Set` — its value is
returned; end-of-stream, a decode failure and a `Remove` record are the
three error paths of the source. -/
def KvStore.getFull (s : KvStore) (k : String) :
    KvStore × Except KvError (Option String) :=
  match idxLookup s.index k with
  | none => (s, .ok none)
  | some off =>
    match readAt s.log off with
    | .error .eof => (s, .error (.offsetNotFound off))
    | .error .corrupt => (s, .error .corruptRecord)
    | .ok (.Set _ v) => (s, .ok (some v))
    | .ok (.Remove _) => (s, .error (.removeAtOffset off))

/-- The `Result` returned by `KvStore::get`. -/
def KvStore.get (s : KvStore) (k : String) : Except KvError (Option String) :=
  (s.getFull k).2

/-- Failure-injection points for `remove`: opening the log for append, or
writing the encoded record. -/
inductive RemoveFail where
  | openFail
  | writeFail
deriving DecidableEq, Repr

/-- `KvStore::remove` with failure injection. An absent key is the
`"Key not found"` error before any I/O. Otherwise the log is opened for
append and the `Remove` record written; only after that write succeeds is
the key deleted from the index. On an injected failure the function
returns through `?` with the index untouched (partial bytes of an
interrupted append are not modelled; the index is the claim's subject). -/
def KvStore.removeIO (s : KvStore) (k : String) (io : Option RemoveFail) :
    KvStore × Except KvError Unit :=
  match idxLookup s.index k with
  | none => (s, .error .keyNotFound)
  | some _ =>
    match io with
    | some .openFail => (s, .error .ioError)
    | some .writeFail => (s, .error .ioError)
    | none =>
      ({ index := idxRemove s.index k, log := s.log ++ [.Remove k] }, .ok ())

/-- `KvStore::remove` when the filesystem does not fail. -/
def KvStore.remove (s : KvStore) (k : String) : KvStore × Except KvError Unit :=
  s.removeIO k none

/-- One client operation of a session. -/
inductive Op where
  | set (k v : String)
  | remove (k : String)
deriving DecidableEq, Repr

/-- Apply one operation to the store (healthy filesystem). -/
def applyOp (s : KvStore) : Op → KvStore × Except KvError Unit
  | .set k v => s.setFull k v
  | .remove k => s.removeIO k none

/-- Run a sequence of operations, stopping at the first failure; `.ok s`
means every operation in the sequence succeeded. -/
def runOps (s : KvStore) : List Op → Except KvError KvStore
  | [] => .ok s
  | op :: ops =>
    match applyOp s op with
    | (s', .ok _) => runOps s' ops
    | (_, .error e) => .error e

/-- The specification's view of a session: the value of the most recent
`set (k, v)` in `ops` not followed by a `remove k`, if any. -/
def specStep (k : String) (acc : Option String) : Op → Option String
  | .set k' v => if k' = k then some v else acc
  | .remove k' => if k' = k then none else acc

/-- Fold `specStep` over a whole session, starting from no binding. -/
def specLookup (ops : List Op) (k : String) : Option String :=
  ops.foldl (specStep k) none

/-! ## Basic facts about the codec and the log -/

theorem escCharLen_pos (c : Char) : 0 < escCharLen c := by
  unfold escCharLen
  split
  · exact Nat.zero_lt_succ _
  · split
    · split
      · exact Nat.zero_lt_succ _
      · exact Nat.zero_lt_succ _
    · exact Char.utf8Size_pos c

theorem encLen_pos (c : KvCommand) : 0 < encLen c := by
  cases c <;> simp [encLen]

@[simp] theorem logSize_nil : logSize [] = 0 := rfl

@[simp] theorem logSize_cons (c : KvCommand) (l : List KvCommand) :
    logSize (c :: l) = encLen c + logSize l := rfl

@[simp] theorem logSize_append (l₁ l₂ : List KvCommand) :
    logSize (l₁ ++ l₂) = logSize l₁ + logSize l₂ := by
  simp [logSize]

/-- A successful read is untouched by appending records at the end of
the log. -/
theorem readAt_append_of_ok {l : List KvCommand} {off : Nat} {c : KvCommand}
    (h : readAt l off = .ok c) (l₂ : List KvCommand) :
    readAt (l ++ l₂) off = .ok c := by
  induction l generalizing off with
  | nil => simp [readAt] at h
  | cons hd tl ih =>
    rw [readAt] at h
    rw [List.cons_append, readAt]
    by_cases h0 : off = 0
    · rw [if_pos h0] at h ⊢
      exact h
    · rw [if_neg h0] at h ⊢
      by_cases hlt : off < encLen hd
      · rw [if_pos hlt] at h
        exact absurd h (by simp)
      · rw [if_neg hlt] at h ⊢
        exact ih h

/-- Reading at the size of a prefix skips exactly that prefix. -/
theorem readAt_append_size (l₁ l₂ : List KvCommand) (d : Nat) :
    readAt (l₁ ++ l₂) (logSize l₁ + d) = readAt l₂ d := by
  induction l₁ with
  | nil => simp [logSize]
  | cons hd tl ih =>
    rw [List.cons_append, readAt]
    have hpos := encLen_pos hd
    rw [logSize_cons]
    split
    · omega
    · split
      · omega
      · have : encLen hd + logSize tl + d - encLen hd = logSize tl + d := by omega
        rw [this, ih]

/-- Reading exactly at the end of a prefix yields the next record. -/
theorem readAt_at_size (l₁ : List KvCommand) (c : KvCommand) (l₂ : List KvCommand) :
    readAt (l₁ ++ c :: l₂) (logSize l₁) = .ok c := by
  have := readAt_append_size l₁ (c :: l₂) 0
  simpa [readAt] using this

/-- A record successfully read from the log is one of its records. -/
theorem readAt_ok_mem {l : List KvCommand} {off : Nat} {c : KvCommand}
    (h : readAt l off = .ok c) : c ∈ l := by
  induction l generalizing off with
  | nil => simp [readAt] at h
  | cons hd tl ih =>
    rw [readAt] at h
    split at h
    · simp at h
      simp [h]
    · split at h
      · exact absurd h (by simp)
      · exact List.mem_cons_of_mem _ (ih h)

/-! ## Facts about the index (association list with `HashMap` semantics) -/

@[simp] theorem idxLookup_nil (k : String) : idxLookup [] k = none := rfl

theorem idxLookup_cons (p : String × Nat) (tl : List (String × Nat)) (k : String) :
    idxLookup (p :: tl) k = if p.1 = k then some p.2 else idxLookup tl k := by
  unfold idxLookup
  rw [List.find?_cons]
  by_cases h : p.1 = k
  · have hb : (p.1 == k) = true := beq_iff_eq.mpr h
    simp [hb, h]
  · have hb : (p.1 == k) = false := beq_eq_false_iff_ne.mpr h
    simp [hb, h]

theorem idxRemove_cons (p : String × Nat) (tl : List (String × Nat)) (k : String) :
    idxRemove (p :: tl) k =
      if p.1 = k then idxRemove tl k else p :: idxRemove tl k := by
  unfold idxRemove
  rw [List.filter_cons]
  by_cases h : p.1 = k <;> simp [h]

theorem idxLookup_idxRemove (idx : List (String × Nat)) (k k' : String) :
    idxLookup (idxRemove idx k) k' = if k' = k then none else idxLookup idx k' := by
  induction idx with
  | nil => simp [idxRemove, idxLookup]
  | cons p tl ih =>
    rw [idxRemove_cons]
    by_cases hpk : p.1 = k
    · rw [if_pos hpk, ih]
      by_cases hk : k' = k
      · rw [if_pos hk, if_pos hk]
      · rw [if_neg hk, if_neg hk, idxLookup_cons,
          if_neg (fun h : p.1 = k' => hk (h.symm.trans hpk))]
    · rw [if_neg hpk, idxLookup_cons, idxLookup_cons, ih]
      by_cases hpk' : p.1 = k'
      · rw [if_pos hpk', if_neg (fun hk : k' = k => hpk (hpk'.trans hk)), if_pos hpk']
      · rw [if_neg hpk', if_neg hpk']

theorem idxLookup_append (l₁ l₂ : List (String × Nat)) (k : String) :
    idxLookup (l₁ ++ l₂) k = (idxLookup l₁ k).or (idxLookup l₂ k) := by
  unfold idxLookup
  rw [List.find?_append]
  cases List.find? (fun p => p.1 == k) l₁ <;> simp

theorem idxLookup_idxInsert (idx : List (String × Nat)) (k k' : String) (off : Nat) :
    idxLookup (idxInsert idx k off) k' =
      if k' = k then some off else idxLookup idx k' := by
  unfold idxInsert
  rw [idxLookup_append, idxLookup_idxRemove]
  by_cases hk : k' = k
  · rw [if_pos hk, if_pos hk, idxLookup_cons, if_pos hk.symm]
    rfl
  · rw [if_neg hk, if_neg hk, idxLookup_cons,
      if_neg (fun h : k = k' => hk h.symm)]
    simp

theorem idxLookup_mem {idx : List (String × Nat)} {k : String} {off : Nat}
    (h : idxLookup idx k = some off) : (k, off) ∈ idx := by
  unfold idxLookup at h
  cases hfind : List.find? (fun p => p.1 == k) idx with
  | none => simp [hfind] at h
  | some p =>
    have hmem := List.mem_of_find?_eq_some hfind
    have hkey : p.1 = k := by simpa using List.find?_some hfind
    simp only [hfind, Option.map_some'] at h
    have : p = (k, off) := by
      cases p
      simp_all
    rwa [this] at hmem

theorem idxLookup_eq_none_iff (idx : List (String × Nat)) (k : String) :
    idxLookup idx k = none ↔ k ∉ idx.map Prod.fst := by
  unfold idxLookup
  rw [Option.map_eq_none', List.find?_eq_none]
  constructor
  · intro h hk
    rcases List.mem_map.mp hk with ⟨p, hp, hfst⟩
    exact h p hp (by simp [hfst])
  · intro h p hp hbeq
    exact h (List.mem_map.mpr ⟨p, hp, by simpa using hbeq⟩)

theorem mem_idxRemove {idx : List (String × Nat)} {k : String} {p : String × Nat} :
    p ∈ idxRemove idx k ↔ p ∈ idx ∧ p.1 ≠ k := by
  simp [idxRemove, List.mem_filter]

theorem mem_idxInsert {idx : List (String × Nat)} {k : String} {off : Nat}
    {p : String × Nat} :
    p ∈ idxInsert idx k off ↔ (p ∈ idx ∧ p.1 ≠ k) ∨ p = (k, off) := by
  simp [idxInsert, mem_idxRemove]

theorem nodup_idxRemove {idx : List (String × Nat)} (k : String)
    (h : (idx.map Prod.fst).Nodup) : ((idxRemove idx k).map Prod.fst).Nodup := by
  induction idx with
  | nil => simp [idxRemove]
  | cons p tl ih =>
    simp only [List.map_cons, List.nodup_cons] at h
    rw [idxRemove_cons]
    by_cases hpk : p.1 = k
    · rw [if_pos hpk]
      exact ih h.2
    · rw [if_neg hpk]
      simp only [List.map_cons, List.nodup_cons]
      refine ⟨fun hmem => ?_, ih h.2⟩
      rcases List.mem_map.mp hmem with ⟨q, hq, hfst⟩
      exact h.1 (List.mem_map.mpr ⟨q, (mem_idxRemove.mp hq).1, hfst⟩)

theorem nodup_idxInsert {idx : List (String × Nat)} (k : String) (off : Nat)
    (h : (idx.map Prod.fst).Nodup) :
    ((idxInsert idx k off).map Prod.fst).Nodup := by
  unfold idxInsert
  rw [List.map_append, List.nodup_append]
  refine ⟨nodup_idxRemove k h, by simp, ?_⟩
  intro a ha hb
  simp only [List.map_cons, List.map_nil, List.mem_singleton] at hb
  rcases List.mem_map.mp ha with ⟨q, hq, hfst⟩
  exact (mem_idxRemove.mp hq).2 (hfst.trans hb)

/-! ## Well-formed stores -/

/-- Decidable index-consistency check: every index entry points at a
`Set` record for exactly its own key. -/
def KvStore.goodB (s : KvStore) : Bool :=
  s.index.all (fun p =>
    match readAt s.log p.2 with
    | .ok (.Set k _) => k == p.1
    | _ => false)

/-- Well-formed store: index keys are unique (a `HashMap` never holds a
key twice) and every index entry points at a `Set` record for its key —
the invariant the source maintains between operations of one session. -/
def WF (s : KvStore) : Prop :=
  (s.index.map Prod.fst).Nodup ∧ s.goodB = true

theorem goodB_spec {s : KvStore} (h : s.goodB = true) {p : String × Nat}
    (hp : p ∈ s.index) : ∃ v, readAt s.log p.2 = .ok (.Set p.1 v) := by
  have hall := List.all_eq_true.mp h p hp
  cases hra : readAt s.log p.2 with
  | error e => rw [hra] at hall; simp at hall
  | ok c =>
    cases c with
    | Set k v =>
      rw [hra] at hall
      simp only [beq_iff_eq] at hall
      subst hall
      exact ⟨v, rfl⟩
    | Remove k => rw [hra] at hall; simp at hall

/-- In an index with unique keys, membership determines lookup. -/
theorem idxLookup_of_mem_nodup {idx : List (String × Nat)}
    (hnd : (idx.map Prod.fst).Nodup) {k : String} {off : Nat}
    (hmem : (k, off) ∈ idx) : idxLookup idx k = some off := by
  induction idx with
  | nil => simp at hmem
  | cons q tl ih =>
    simp only [List.map_cons, List.nodup_cons] at hnd
    rw [idxLookup_cons]
    rcases List.mem_cons.mp hmem with heq | htl
    · rw [← heq]
      simp
    · by_cases hq : q.1 = k
      · exact absurd (List.mem_map.mpr ⟨(k, off), htl, hq.symm⟩) hnd.1
      · rw [if_neg hq]
        exact ih hnd.2 htl

/-- Key membership of the index, read off from lookup. -/
theorem mem_keys_of_idxLookup {idx : List (String × Nat)} {k : String} {off : Nat}
    (h : idxLookup idx k = some off) : k ∈ idx.map Prod.fst :=
  List.mem_map.mpr ⟨(k, off), idxLookup_mem h, rfl⟩

/-- The abstract value a store associates to a key: the value of the
`Set` record its index points at, if any. -/
def absGet (s : KvStore) (k : String) : Option String :=
  match idxLookup s.index k with
  | none => none
  | some off =>
    match readAt s.log off with
    | .ok (.Set _ v) => some v
    | _ => none

/-- On a consistent store, `get` succeeds and returns the abstract value. -/
theorem get_eq_absGet {s : KvStore} (h : s.goodB = true) (k : String) :
    s.get k = .ok (absGet s k) := by
  unfold KvStore.get KvStore.getFull absGet
  cases hl : idxLookup s.index k with
  | none => rfl
  | some off =>
    obtain ⟨v, hv⟩ := goodB_spec h (idxLookup_mem hl)
    simp [hv]

/-! ## Compaction -/

/-- The records compaction copies into the temporary file: for each index
entry in iteration order, the record decoded at its offset in the old
log. -/
def compactRecs (old : List KvCommand) (entries : List (String × Nat)) :
    List KvCommand :=
  entries.filterMap (fun p => (readAt old p.2).toOption)

/-- The key a record is about. -/
def cmdKey : KvCommand → String
  | .Set k _ => k
  | .Remove k => k

theorem compactRecs_nil (old : List KvCommand) : compactRecs old [] = [] := rfl

theorem compactRecs_cons_ok {old : List KvCommand} {p : String × Nat}
    {c : KvCommand} (h : readAt old p.2 = .ok c) (rest : List (String × Nat)) :
    compactRecs old (p :: rest) = c :: compactRecs old rest := by
  simp [compactRecs, h, Except.toOption]

/-- Under the index invariant the copied records carry exactly the index
keys, in order. -/
theorem compactRecs_keys (old : List KvCommand) :
    ∀ entries : List (String × Nat),
    (∀ p ∈ entries, ∃ v, readAt old p.2 = .ok (.Set p.1 v)) →
    (compactRecs old entries).map cmdKey = entries.map Prod.fst := by
  intro entries h
  induction entries with
  | nil => rfl
  | cons p rest ih =>
    obtain ⟨v, hv⟩ := h p (List.mem_cons_self p rest)
    rw [compactRecs_cons_ok hv, List.map_cons, List.map_cons,
      ih (fun q hq => h q (List.mem_cons_of_mem p hq))]
    rfl

/-- Every copied record occurs in the old log. -/
theorem compactRecs_subset (old : List KvCommand) (entries : List (String × Nat)) :
    ∀ c ∈ compactRecs old entries, c ∈ old := by
  intro c hc
  rcases List.mem_filterMap.mp hc with ⟨p, -, hp⟩
  cases hra : readAt old p.2 with
  | error e => rw [hra] at hp; simp [Except.toOption] at hp
  | ok c' =>
    rw [hra] at hp
    simp only [Except.toOption, Option.some.injEq] at hp
    exact hp ▸ readAt_ok_mem hra

/-- Specification of the compaction loop when no I/O failure is injected
and every entry's offset holds a `Set` record for its key: the loop
succeeds, the temporary file receives exactly the copied records, keys
outside the entries keep their `tmap` binding, every entry's key is
rebound to an offset holding its record in the new file, and unique keys
stay unique. -/
theorem compactGo_spec (old : List KvCommand) :
    ∀ (entries : List (String × Nat)) (acc : List KvCommand)
      (tm : List (String × Nat)) (i : Nat),
    (entries.map Prod.fst).Nodup →
    (∀ p ∈ entries, ∃ v, readAt old p.2 = .ok (.Set p.1 v)) →
    ∃ tm',
      compactGo old entries acc tm i none =
        .ok (acc ++ compactRecs old entries, tm') ∧
      (∀ k, k ∉ entries.map Prod.fst → idxLookup tm' k = idxLookup tm k) ∧
      (∀ p ∈ entries, ∀ v, readAt old p.2 = .ok (.Set p.1 v) →
        ∃ off', idxLookup tm' p.1 = some off' ∧
          readAt (acc ++ compactRecs old entries) off' = .ok (.Set p.1 v)) ∧
      ((tm.map Prod.fst).Nodup → (tm'.map Prod.fst).Nodup) := by
  intro entries
  induction entries with
  | nil =>
    intro acc tm i hnd hgood
    exact ⟨tm, by simp [compactGo, compactRecs_nil], fun k _ => rfl,
      fun p hp => absurd hp (List.not_mem_nil p), id⟩
  | cons p rest ih =>
    intro acc tm i hnd hgood
    obtain ⟨k, off⟩ := p
    obtain ⟨v, hv⟩ := hgood (k, off) (List.mem_cons_self _ rest)
    simp only [List.map_cons, List.nodup_cons] at hnd
    obtain ⟨tm', hrun, hout, hin, hnodup⟩ :=
      ih (acc ++ [KvCommand.Set k v]) (idxInsert tm k (logSize acc)) (i + 1)
        hnd.2 (fun q hq => hgood q (List.mem_cons_of_mem _ hq))
    refine ⟨tm', ?_, ?_, ?_, ?_⟩
    · rw [compactGo, if_neg (by simp : ¬(none : Option Nat) = some i), hv]
      show compactGo old rest (acc ++ [KvCommand.Set k v])
        (idxInsert tm k (logSize acc)) (i + 1) none = _
      rw [hrun, compactRecs_cons_ok hv, List.append_assoc, List.singleton_append]
    · intro k' hk'
      simp only [List.map_cons, List.mem_cons, not_or] at hk'
      rw [hout k' hk'.2, idxLookup_idxInsert, if_neg hk'.1]
    · intro q hq v' hv'
      rcases List.mem_cons.mp hq with heq | htl
      · subst heq
        dsimp only at hv' ⊢
        rw [hv] at hv'
        injection hv' with h1
        injection h1 with h2 h3
        subst h3
        refine ⟨logSize acc, ?_, ?_⟩
        · rw [hout k hnd.1, idxLookup_idxInsert, if_pos rfl]
        · rw [compactRecs_cons_ok hv]
          exact readAt_at_size acc _ (compactRecs old rest)
      · obtain ⟨off', hoff', hread⟩ := hin q htl v' hv'
        refine ⟨off', hoff', ?_⟩
        rw [compactRecs_cons_ok hv, ← List.singleton_append, ← List.append_assoc]
        exact hread
    · intro hnd'
      exact hnodup (nodup_idxInsert k (logSize acc) hnd')

/-- The compacted records fit in no more bytes than the old log: with
unique keys the copied records are pairwise distinct (their keys differ)
and each occurs in the old log, so they form a sub-permutation of it. -/
theorem compactRecs_size_le (old : List KvCommand)
    (entries : List (String × Nat)) (hnd : (entries.map Prod.fst).Nodup)
    (hgood : ∀ p ∈ entries, ∃ v, readAt old p.2 = .ok (.Set p.1 v)) :
    logSize (compactRecs old entries) ≤ logSize old := by
  have hkeys := compactRecs_keys old entries hgood
  have hnodup : (compactRecs old entries).Nodup :=
    List.Nodup.of_map cmdKey (hkeys ▸ hnd)
  have hsubperm : (compactRecs old entries).Subperm old :=
    List.subperm_of_subset hnodup (compactRecs_subset old entries)
  obtain ⟨l, hperm, hsub⟩ := hsubperm
  calc logSize (compactRecs old entries)
      = (l.map encLen).sum := ((hperm.map encLen).sum_eq).symm
    _ ≤ (old.map encLen).sum :=
        (hsub.map encLen).sum_le_sum (fun a _ => Nat.zero_le a)
    _ = logSize old := rfl

/-- The number of records compaction writes is the number of live keys. -/
theorem compactRecs_length (old : List KvCommand) :
    ∀ entries : List (String × Nat),
    (∀ p ∈ entries, ∃ v, readAt old p.2 = .ok (.Set p.1 v)) →
    (compactRecs old entries).length = entries.length := by
  intro entries h
  induction entries with
  | nil => rfl
  | cons p rest ih =>
    obtain ⟨v, hv⟩ := h p (List.mem_cons_self p rest)
    rw [compactRecs_cons_ok hv, List.length_cons, List.length_cons,
      ih (fun q hq => h q (List.mem_cons_of_mem p hq))]

/-- Specification of a completed compaction on a well-formed store: it
succeeds, preserves well-formedness and the abstract contents, does not
grow the log, and leaves exactly one record per live key. -/
theorem compact_spec {s : KvStore} (hWF : WF s) :
    ∃ s', s.compact = (s', .ok ()) ∧ WF s' ∧
      (∀ k, absGet s' k = absGet s k) ∧
      logSize s'.log ≤ logSize s.log ∧
      s'.log.length = s.index.length := by
  have hgood : ∀ p ∈ s.index, ∃ v, readAt s.log p.2 = .ok (.Set p.1 v) :=
    fun p hp => goodB_spec hWF.2 hp
  obtain ⟨tm', hrun, hout, hin, hnodup⟩ :=
    compactGo_spec s.log s.index [] [] 0 hWF.1 hgood
  have hnd' : (tm'.map Prod.fst).Nodup := hnodup (by simp)
  refine ⟨⟨tm', compactRecs s.log s.index⟩, ?_, ⟨hnd', ?_⟩, ?_, ?_, ?_⟩
  · unfold KvStore.compact KvStore.compactIO
    rw [hrun]
    rfl
  · -- every entry of the new index points at a `Set` record for its key
    unfold KvStore.goodB
    dsimp only
    rw [List.all_eq_true]
    intro p hp
    have hlook : idxLookup tm' p.1 = some p.2 := idxLookup_of_mem_nodup hnd' hp
    -- p's key must come from some old entry, else its lookup would be empty
    by_cases hk : p.1 ∈ s.index.map Prod.fst
    · rcases List.mem_map.mp hk with ⟨q, hq, hfst⟩
      obtain ⟨v, hv⟩ := hgood q hq
      obtain ⟨off', hoff', hread⟩ := hin q hq v hv
      rw [hfst] at hoff' hread
      rw [hlook] at hoff'
      injection hoff' with hoff'
      subst hoff'
      simp only [List.nil_append] at hread
      rw [hread]
      simp
    · rw [hout p.1 hk] at hlook
      simp [idxLookup] at hlook
  · intro k
    unfold absGet
    dsimp only
    by_cases hk : k ∈ s.index.map Prod.fst
    · rcases List.mem_map.mp hk with ⟨q, hq, hfst⟩
      obtain ⟨v, hv⟩ := hgood q hq
      obtain ⟨off', hoff', hread⟩ := hin q hq v hv
      rw [hfst] at hoff' hread
      have hqlook : idxLookup s.index k = some q.2 :=
        hfst ▸ idxLookup_of_mem_nodup hWF.1 hq
      simp only [List.nil_append] at hread
      have hv' : readAt s.log q.2 = .ok (.Set k v) := hfst ▸ hv
      rw [hoff', hqlook]
      simp only [hread, hv']
    · have h1 : idxLookup tm' k = none := by
        rw [hout k hk]
        rfl
      have h2 : idxLookup s.index k = none := (idxLookup_eq_none_iff _ _).mpr hk
      rw [h1, h2]
  · exact compactRecs_size_le s.log s.index hWF.1 hgood
  · exact compactRecs_length s.log s.index hgood

/-! ## Effect of single operations on well-formed stores -/

/-- Appending a `Set` record at the end of the log and binding its key to
the prior end-of-file offset (the append path of `set`) preserves
well-formedness and rebinds exactly that key. -/
theorem appendSet_spec {s : KvStore} (hWF : WF s) (k v : String) :
    WF { index := idxInsert s.index k (logSize s.log),
         log := s.log ++ [KvCommand.Set k v] } ∧
    ∀ k', absGet { index := idxInsert s.index k (logSize s.log),
                   log := s.log ++ [KvCommand.Set k v] } k' =
      if k' = k then some v else absGet s k' := by
  constructor
  · refine ⟨nodup_idxInsert k (logSize s.log) hWF.1, ?_⟩
    unfold KvStore.goodB
    dsimp only
    rw [List.all_eq_true]
    intro p hp
    rcases mem_idxInsert.mp hp with ⟨hmem, -⟩ | heq
    · obtain ⟨w, hw⟩ := goodB_spec hWF.2 hmem
      rw [readAt_append_of_ok hw [KvCommand.Set k v]]
      simp
    · subst heq
      rw [readAt_at_size s.log (KvCommand.Set k v) []]
      simp
  · intro k'
    unfold absGet
    dsimp only
    rw [idxLookup_idxInsert]
    by_cases hk : k' = k
    · rw [if_pos hk, if_pos hk]
      simp only [readAt_at_size s.log (KvCommand.Set k v) []]
    · rw [if_neg hk, if_neg hk]
      cases hl : idxLookup s.index k' with
      | none => rfl
      | some off =>
        obtain ⟨w, hw⟩ := goodB_spec hWF.2 (idxLookup_mem hl)
        dsimp only at hw
        simp only [readAt_append_of_ok hw [KvCommand.Set k v], hw]

/-- Appending a `Remove` record and deleting its key from the index (the
success path of `remove`) preserves well-formedness and unbinds exactly
that key. -/
theorem appendRemove_spec {s : KvStore} (hWF : WF s) (k : String) :
    WF { index := idxRemove s.index k, log := s.log ++ [KvCommand.Remove k] } ∧
    ∀ k', absGet { index := idxRemove s.index k,
                   log := s.log ++ [KvCommand.Remove k] } k' =
      if k' = k then none else absGet s k' := by
  constructor
  · refine ⟨nodup_idxRemove k hWF.1, ?_⟩
    unfold KvStore.goodB
    dsimp only
    rw [List.all_eq_true]
    intro p hp
    obtain ⟨w, hw⟩ := goodB_spec hWF.2 (mem_idxRemove.mp hp).1
    rw [readAt_append_of_ok hw [KvCommand.Remove k]]
    simp
  · intro k'
    unfold absGet
    dsimp only
    rw [idxLookup_idxRemove]
    by_cases hk : k' = k
    · rw [if_pos hk, if_pos hk]
    · rw [if_neg hk, if_neg hk]
      cases hl : idxLookup s.index k' with
      | none => rfl
      | some off =>
        obtain ⟨w, hw⟩ := goodB_spec hWF.2 (idxLookup_mem hl)
        dsimp only at hw
        simp only [readAt_append_of_ok hw [KvCommand.Remove k], hw]

/-- `set` on a well-formed store always succeeds (compacting first when
over the threshold), preserves well-formedness, and rebinds exactly the
written key. -/
theorem setFull_spec {s : KvStore} (hWF : WF s) (k v : String) :
    ∃ s₁, s.setFull k v = (s₁, .ok ()) ∧ WF s₁ ∧
      ∀ k', absGet s₁ k' = if k' = k then some v else absGet s k' := by
  unfold KvStore.setFull
  by_cases hsz : logSize s.log > compactionThreshold
  · obtain ⟨s', hc, hWF', habs', -, -⟩ := compact_spec hWF
    obtain ⟨hWF₁, habs₁⟩ := appendSet_spec hWF' k v
    rw [if_pos hsz, hc]
    refine ⟨_, rfl, hWF₁, fun k' => ?_⟩
    rw [habs₁ k']
    by_cases hk : k' = k
    · rw [if_pos hk, if_pos hk]
    · rw [if_neg hk, if_neg hk, habs' k']
  · obtain ⟨hWF₁, habs₁⟩ := appendSet_spec hWF k v
    rw [if_neg hsz]
    exact ⟨_, rfl, hWF₁, habs₁⟩

/-- `remove` on a well-formed store: with the key present it succeeds,
preserves well-formedness and unbinds exactly that key; with the key
absent it fails with `keyNotFound` leaving the store untouched. -/
theorem removeFull_spec {s : KvStore} (hWF : WF s) (k : String) :
    (idxLookup s.index k = none → s.remove k = (s, .error .keyNotFound)) ∧
    (∀ off, idxLookup s.index k = some off →
      ∃ s₁, s.remove k = (s₁, .ok ()) ∧ WF s₁ ∧
        ∀ k', absGet s₁ k' = if k' = k then none else absGet s k') := by
  constructor
  · intro hl
    unfold KvStore.remove KvStore.removeIO
    rw [hl]
  · intro off hl
    obtain ⟨hWF₁, habs₁⟩ := appendRemove_spec hWF k
    refine ⟨_, ?_, hWF₁, habs₁⟩
    unfold KvStore.remove KvStore.removeIO
    rw [hl]

@[simp] theorem specStep_set (k : String) (acc : Option String) (k' v : String) :
    specStep k acc (.set k' v) = if k' = k then some v else acc := rfl

@[simp] theorem specStep_remove (k : String) (acc : Option String) (k' : String) :
    specStep k acc (.remove k') = if k' = k then none else acc := rfl

/-- A store opened on an empty log is well-formed. -/
theorem WF_openEmpty : WF (KvStore.openStore []) := ⟨List.nodup_nil, rfl⟩

/-- Induction along a successful session: well-formedness is preserved
and the abstract contents evolve by folding the specification step over
the operations. -/
theorem runOps_spec : ∀ (ops : List Op) (s s' : KvStore), WF s →
    runOps s ops = .ok s' →
    WF s' ∧ ∀ k, absGet s' k = List.foldl (specStep k) (absGet s k) ops := by
  intro ops
  induction ops with
  | nil =>
    intro s s' hWF h
    simp only [runOps] at h
    injection h with h
    subst h
    exact ⟨hWF, fun k => rfl⟩
  | cons op ops ih =>
    intro s s' hWF h
    cases op with
    | set k v =>
      obtain ⟨s₁, hset, hWF₁, habs₁⟩ := setFull_spec hWF k v
      have hap : applyOp s (Op.set k v) = (s₁, Except.ok ()) := hset
      rw [runOps, hap] at h
      replace h : runOps s₁ ops = Except.ok s' := h
      obtain ⟨hWF', habs'⟩ := ih s₁ s' hWF₁ h
      refine ⟨hWF', fun k' => ?_⟩
      rw [habs' k', List.foldl_cons, habs₁ k']
      congr 1
      rw [specStep_set]
      by_cases hk : k' = k
      · rw [if_pos hk, if_pos hk.symm]
      · rw [if_neg hk, if_neg (fun hh => hk hh.symm)]
    | remove k =>
      cases hl : idxLookup s.index k with
      | none =>
        have hap : applyOp s (Op.remove k) = (s, Except.error KvError.keyNotFound) :=
          (removeFull_spec hWF k).1 hl
        rw [runOps, hap] at h
        exact absurd h (by simp)
      | some off =>
        obtain ⟨s₁, hrem, hWF₁, habs₁⟩ := (removeFull_spec hWF k).2 off hl
        have hap : applyOp s (Op.remove k) = (s₁, Except.ok ()) := hrem
        rw [runOps, hap] at h
        replace h : runOps s₁ ops = Except.ok s' := h
        obtain ⟨hWF', habs'⟩ := ih s₁ s' hWF₁ h
        refine ⟨hWF', fun k' => ?_⟩
        rw [habs' k', List.foldl_cons, habs₁ k']
        congr 1
        rw [specStep_remove]
        by_cases hk : k' = k
        · rw [if_pos hk, if_pos hk.symm]
        · rw [if_neg hk, if_neg (fun hh => hk hh.symm)]

/-! ## The claims -/

/-- C1: Within a single open session started on a fresh (empty) log, for
every sequence of successful `set`/`remove` operations and every key `k`,
a subsequent `get k` returns `Ok` of the value of the most recent
`set (k, v)` in the sequence not followed by a `remove k`, and `Ok None`
(the empty result, not an error) when there is no such `set`. -/
theorem C1_session_get_semantics (ops : List Op) (s' : KvStore)
    (h : runOps (KvStore.openStore []) ops = .ok s') (k : String) :
    s'.get k = .ok (specLookup ops k) := by
  obtain ⟨hWF', habs'⟩ := runOps_spec ops (KvStore.openStore []) s' WF_openEmpty h
  rw [get_eq_absGet hWF'.2 k, habs' k]
  rfl

theorem C1_witness :
    KvStore.get ⟨[("b", 31)], [KvCommand.Set "a" "1", KvCommand.Remove "a",
      KvCommand.Set "b" "2"]⟩ "a" = .ok none ∧
    KvStore.get ⟨[("b", 31)], [KvCommand.Set "a" "1", KvCommand.Remove "a",
      KvCommand.Set "b" "2"]⟩ "b" = .ok (some "2") := by
  have h : runOps (KvStore.openStore [])
      [Op.set "a" "1", Op.remove "a", Op.set "b" "2"] =
      .ok ⟨[("b", 31)], [KvCommand.Set "a" "1", KvCommand.Remove "a",
        KvCommand.Set "b" "2"]⟩ := by rfl
  exact ⟨C1_session_get_semantics _ _ h "a", C1_session_get_semantics _ _ h "b"⟩

/-- C2: the claim that after `open` the offset stored for a key equals
the byte position where that key's most recent `Set` record begins is
false on the code: `fill_index` does not refresh its `offset` cursor
after a `Remove` record, so replaying
`[Set "a" "1", Remove "a", Set "b" "2"]` binds `"b"` to offset 17 (the
start of the `Remove "a"` record) although `Set "b" "2"` begins at
byte 31; `get "b"` on the reopened store consequently fails instead of
returning `"2"`. -/
theorem C2_fill_index_stale_offset :
    fillIndex [KvCommand.Set "a" "1", KvCommand.Remove "a",
      KvCommand.Set "b" "2"] = [("b", 17)] ∧
    logSize [KvCommand.Set "a" "1", KvCommand.Remove "a"] = 31 ∧
    readAt [KvCommand.Set "a" "1", KvCommand.Remove "a",
      KvCommand.Set "b" "2"] 31 = .ok (KvCommand.Set "b" "2") ∧
    readAt [KvCommand.Set "a" "1", KvCommand.Remove "a",
      KvCommand.Set "b" "2"] 17 = .ok (KvCommand.Remove "a") ∧
    (KvStore.openStore [KvCommand.Set "a" "1", KvCommand.Remove "a",
      KvCommand.Set "b" "2"]).get "b" = .error (.removeAtOffset 17) :=
  ⟨rfl, rfl, rfl, rfl, rfl⟩

/-- C3: on a well-formed store compaction runs to completion, `get` is
unchanged for every key (so every previously visible key stays visible
with the same value), the log does not grow, and the new log holds
exactly one record per live key. -/
theorem C3_compaction_correct {s : KvStore} (hWF : WF s) :
    ∃ s', s.compact = (s', .ok ()) ∧
      (∀ k, s'.get k = s.get k) ∧
      logSize s'.log ≤ logSize s.log ∧
      s'.log.length = s.index.length := by
  obtain ⟨s', hc, hWF', habs, hsize, hlen⟩ := compact_spec hWF
  exact ⟨s', hc,
    fun k => by rw [get_eq_absGet hWF'.2 k, get_eq_absGet hWF.2 k, habs k],
    hsize, hlen⟩

theorem C3_witness :
    ∃ s', KvStore.compact ⟨[("a", 17)],
        [KvCommand.Set "a" "1", KvCommand.Set "a" "2"]⟩ = (s', .ok ()) ∧
      (∀ k, s'.get k = KvStore.get ⟨[("a", 17)],
        [KvCommand.Set "a" "1", KvCommand.Set "a" "2"]⟩ k) ∧
      logSize s'.log ≤
        logSize (KvStore.log ⟨[("a", 17)],
          [KvCommand.Set "a" "1", KvCommand.Set "a" "2"]⟩) ∧
      s'.log.length = (KvStore.index ⟨[("a", 17)],
        [KvCommand.Set "a" "1", KvCommand.Set "a" "2"]⟩).length :=
  @C3_compaction_correct
    ⟨[("a", 17)], [KvCommand.Set "a" "1", KvCommand.Set "a" "2"]⟩
    ⟨by decide, by decide⟩

/-- C4: whenever compaction returns an error — an I/O failure injected at
the temporary-file creation, the read of the current log, any loop
iteration, or the final rename, or the internal read failure — the store
it returns (log at the log path and in-memory index) is exactly the
pre-compaction store: no partial state becomes visible. -/
theorem C4_compact_fail_closed (s : KvStore) (io : Option CompactFail)
    (e : KvError) (h : (s.compactIO io).2 = .error e) :
    (s.compactIO io).1 = s := by
  unfold KvStore.compactIO at h ⊢
  cases io with
  | none =>
    cases hr : compactGo s.log s.index [] [] 0 none with
    | error e' => rfl
    | ok pr =>
      rw [hr] at h
      obtain ⟨nl, tm⟩ := pr
      simp at h
  | some f =>
    cases f with
    | createTmp => rfl
    | openCurr => rfl
    | loopStep i =>
      cases hr : compactGo s.log s.index [] [] 0 (some i) with
      | error e' => simp [hr]
      | ok pr =>
        obtain ⟨nl, tm⟩ := pr
        simp [hr] at h
    | renameSwap =>
      cases hr : compactGo s.log s.index [] [] 0 none with
      | error e' => rfl
      | ok pr => rfl

theorem C4_witness :
    (KvStore.compactIO ⟨[("a", 0)], [KvCommand.Set "a" "1"]⟩
      (some .createTmp)).1 = ⟨[("a", 0)], [KvCommand.Set "a" "1"]⟩ :=
  C4_compact_fail_closed ⟨[("a", 0)], [KvCommand.Set "a" "1"]⟩
    (some .createTmp) .ioError rfl

/-- C5: `remove` of a key absent from the index fails with `keyNotFound`
leaving the index and the log untouched; `remove` of a present key
succeeds, appends a `Remove` record to the log and deletes the key from
the index. -/
theorem C5_remove_semantics (s : KvStore) (k : String) :
    s.remove k =
      match idxLookup s.index k with
      | none => (s, .error .keyNotFound)
      | some _ => ({ index := idxRemove s.index k,
                     log := s.log ++ [KvCommand.Remove k] }, .ok ()) := by
  unfold KvStore.remove KvStore.removeIO
  cases idxLookup s.index k <;> rfl

/-- C6: starting from an empty log, `set "a" "1"`, `set "b" "2"`,
`remove "a"`, then closing and reopening the store on the same log file:
`get "a"` returns the empty result and `get "b"` returns `"2"`. -/
theorem C6_reopen_round_trip :
    ∃ s₃, runOps (KvStore.openStore [])
        [Op.set "a" "1", Op.set "b" "2", Op.remove "a"] = .ok s₃ ∧
      (KvStore.openStore s₃.log).get "a" = .ok none ∧
      (KvStore.openStore s₃.log).get "b" = .ok (some "2") :=
  ⟨⟨[("b", 17)], [KvCommand.Set "a" "1", KvCommand.Set "b" "2",
      KvCommand.Remove "a"]⟩, rfl, rfl, rfl⟩

/-- C7: the compaction threshold is the fixed constant `(1 << 10) * 30` =
30 KiB (tens of kilobytes); `set` compacts exactly when the current log
size exceeds it, before appending; `get` leaves the store untouched; and
`remove` never compacts — it either leaves the log unchanged (failure) or
extends it by exactly the one `Remove` record. -/
theorem C7_compaction_trigger (s : KvStore) (k v : String) :
    compactionThreshold = 30 * 1024 ∧
    10 * 1024 ≤ compactionThreshold ∧ compactionThreshold < 100 * 1024 ∧
    s.setFull k v =
      (if logSize s.log > compactionThreshold then
        match s.compact with
        | (s', .ok _) => ({ index := idxInsert s'.index k (logSize s'.log),
                            log := s'.log ++ [KvCommand.Set k v] }, .ok ())
        | (s', .error e) => (s', .error e)
      else ({ index := idxInsert s.index k (logSize s.log),
              log := s.log ++ [KvCommand.Set k v] }, .ok ())) ∧
    (s.getFull k).1 = s ∧
    ((s.remove k).1.log = s.log ∨ (s.remove k).1.log = s.log ++ [KvCommand.Remove k]) := by
  refine ⟨rfl, by decide, by decide, rfl, ?_, ?_⟩
  · unfold KvStore.getFull
    cases idxLookup s.index k with
    | none => rfl
    | some off =>
      dsimp only
      cases readAt s.log off with
      | ok c => cases c <;> rfl
      | error e => cases e <;> rfl
  · unfold KvStore.remove KvStore.removeIO
    cases idxLookup s.index k with
    | none => exact Or.inl rfl
    | some off => exact Or.inr rfl

/-- C8: for a key present in the index, `get` returns `Ok (Some v)`
exactly when the record at the stored offset decodes as a `Set` with
value `v`; a `Remove` record there, bytes that do not decode, or an
offset past the end each produce a visible error, never a value and
never the empty result. -/
theorem C8_get_error_on_non_set {s : KvStore} {k : String} {off : Nat}
    (h : idxLookup s.index k = some off) :
    s.get k =
      match readAt s.log off with
      | .ok (.Set _ v) => .ok (some v)
      | .ok (.Remove _) => .error (.removeAtOffset off)
      | .error .eof => .error (.offsetNotFound off)
      | .error .corrupt => .error .corruptRecord := by
  unfold KvStore.get KvStore.getFull
  rw [h]
  dsimp only
  cases readAt s.log off with
  | ok c => cases c <;> rfl
  | error e => cases e <;> rfl

theorem C8_witness :
    KvStore.get ⟨[("a", 0)], [KvCommand.Remove "a"]⟩ "a" =
      .error (.removeAtOffset 0) :=
  @C8_get_error_on_non_set ⟨[("a", 0)], [KvCommand.Remove "a"]⟩ "a" 0 rfl

/-- C9: `get` never modifies the index or the log — the store it leaves
behind is the store it was given — and therefore two consecutive `get`s
of the same key with no intervening operation return the same result. -/
theorem C9_get_idempotent (s : KvStore) (k : String) :
    (s.getFull k).1 = s ∧
    (s.getFull k).2 = (KvStore.getFull ((s.getFull k).1) k).2 := by
  have h1 : (s.getFull k).1 = s := by
    unfold KvStore.getFull
    cases idxLookup s.index k with
    | none => rfl
    | some off =>
      dsimp only
      cases readAt s.log off with
      | ok c => cases c <;> rfl
      | error e => cases e <;> rfl
  exact ⟨h1, by rw [h1]⟩

/-- C10: when `remove` of a present key fails at opening the log for
append or at writing the `Remove` record, the index is unchanged — the
key is still bound to its previous offset — because the source deletes
the index entry only after the append has succeeded. -/
theorem C10_remove_fail_preserves_index {s : KvStore} {k : String} {off : Nat}
    (h : idxLookup s.index k = some off) (f : RemoveFail) :
    (s.removeIO k (some f)).1.index = s.index ∧
    idxLookup ((s.removeIO k (some f)).1.index) k = some off ∧
    (s.removeIO k (some f)).2 = .error .ioError := by
  unfold KvStore.removeIO
  rw [h]
  cases f <;> exact ⟨rfl, h, rfl⟩

theorem C10_witness :
    (KvStore.removeIO ⟨[("a", 0)], [KvCommand.Set "a" "1"]⟩ "a"
      (some .openFail)).1.index = [("a", 0)] ∧
    idxLookup ((KvStore.removeIO ⟨[("a", 0)], [KvCommand.Set "a" "1"]⟩ "a"
      (some .openFail)).1.index) "a" = some 0 ∧
    (KvStore.removeIO ⟨[("a", 0)], [KvCommand.Set "a" "1"]⟩ "a"
      (some .openFail)).2 = .error .ioError :=
  @C10_remove_fail_preserves_index ⟨[("a", 0)], [KvCommand.Set "a" "1"]⟩
    "a" 0 rfl .openFail
